import Mathlib

/-!
Shallow embedding of the license-plate scanning pipeline:
the image-to-tensor converter (`base64ToTensor`, `resizeNearestNeighbor`)
and the model-output decoder (`processOutput`) with its caller logic
(`processImage`).  JavaScript numbers are modelled as rationals, byte
buffers as lists of naturals, and out-of-range array reads as `Option`
lookups (a JS read past the end of an array yields `undefined`; storing
`undefined` into a `Uint8Array` stores 0, and `undefined > 0.5` is false,
which the embedding mirrors at each use site).
-/

/-- Decoded pixel buffer, as produced by the external JPEG decoder:
width, height and row-major RGBA byte data (4 bytes per pixel). -/
structure RawImage where
  width : ℕ
  height : ℕ
  data : List ℕ
deriving DecidableEq

/-- Source coordinate of a destination coordinate `c`, as computed in
`resizeNearestNeighbor`: `Math.floor(c * oldDim / newDim)`, which on
non-negative integers is natural-number division. -/
def srcCoord (oldDim newDim c : ℕ) : ℕ :=
  c * oldDim / newDim

/-- Nearest-neighbor resize from `src/unnamed/part_000` lines 41-60.
The destination buffer is filled row-major, four channel bytes per pixel,
each copied from the source pixel at the floor-divided coordinates.
An out-of-range source read yields `none` (JS `undefined`), which a
`Uint8Array` store coerces to 0, modelled by `Option.getD _ 0`. -/
def resizeNearestNeighbor (img : RawImage) (newW newH : ℕ) : RawImage where
  width := newW
  height := newH
  data :=
    (List.range newH).flatMap fun y =>
      (List.range newW).flatMap fun x =>
        let srcIdx := (srcCoord img.height newH y * img.width + srcCoord img.width newW x) * 4
        [(img.data[srcIdx]?).getD 0, (img.data[srcIdx + 1]?).getD 0,
         (img.data[srcIdx + 2]?).getD 0, (img.data[srcIdx + 3]?).getD 0]

/-- Normalization loop of `base64ToTensor` (`src/unnamed/part_000` lines
28-37): resize to the target dimensions, then for every pixel emit the
R, G, B channel bytes divided by 255, discarding alpha. -/
def tensorFromImage (raw : RawImage) (targetW targetH : ℕ) : List ℚ :=
  let resized := resizeNearestNeighbor raw targetW targetH
  (List.range (targetW * targetH)).flatMap fun i =>
    [((resized.data[i * 4]?).getD 0 : ℚ) / 255,
     ((resized.data[i * 4 + 1]?).getD 0 : ℚ) / 255,
     ((resized.data[i * 4 + 2]?).getD 0 : ℚ) / 255]

/-- Word character of the regular-expression class `\w`:
ASCII letters, digits, or underscore. -/
def isWordChar (c : Char) : Bool :=
  c.isAlphanum || c = '_'

/-- Character of the base64 alphabet: letters, digits, plus, slash,
or the padding equals sign. -/
def isBase64Char (c : Char) : Bool :=
  c.isAlphanum || c = '+' || c = '/' || c = '='

/-- Drops the literal `lit` from the front of `s`, giving the remainder,
or `none` when `s` does not start with `lit`. -/
def dropLiteral : List Char → List Char → Option (List Char)
  | [], s => some s
  | _ :: _, [] => none
  | p :: ps, c :: cs => if c = p then dropLiteral ps cs else none

/-- Data-URI header removal from `base64ToTensor` line 24:
`base64.replace(/^data:image\/\w+;base64,/, '')`.  The anchored pattern
matches a literal `data:image/`, one or more word characters, then the
literal `;base64,`; on a match the matched header is removed, otherwise
the string is unchanged.  Greedy matching of `\w+` with backtracking is
equivalent to the longest word-character run because a shorter run would
have to match `;` against a word character, which always fails. -/
def stripDataUri (s : List Char) : List Char :=
  match dropLiteral ("data:image/".data) s with
  | none => s
  | some rest =>
      if rest.takeWhile isWordChar = [] then s
      else
        match dropLiteral (";base64,".data) (rest.dropWhile isWordChar) with
        | none => s
        | some tail => tail

/-- The converter `base64ToTensor` (`src/unnamed/part_000` lines 23-38).
Base64 decoding plus JPEG decoding are external library calls
(`Buffer.from`, `jpeg.decode`), abstracted as the parameter
`decodeJpeg` applied to the header-stripped input. -/
def base64ToTensor (decodeJpeg : List Char → RawImage) (base64 : String)
    (targetW targetH : ℕ) : List ℚ :=
  tensorFromImage (decodeJpeg (stripDataUri base64.data)) targetW targetH

/-- Bounding box of a detection record; each field is the raw array read
`output[baseIndex + k]?`, `none` modelling a read past the end. -/
structure BBox where
  x1 : Option ℚ
  y1 : Option ℚ
  x2 : Option ℚ
  y2 : Option ℚ
deriving DecidableEq

/-- Detection record pushed by `processOutput`: confidence, box and the
placeholder text. -/
structure Plate where
  confidence : ℚ
  bbox : BBox
  text : String
deriving DecidableEq

/-- Placeholder text built at `ScanLicensePlateScreen.js` line 166 from
two `Math.random()` draws: the template string
`KA(floor(r1 * 100))AB(floor(r2 * 10000))`. -/
def plateText (r1 r2 : ℚ) : String :=
  "KA" ++ toString ⌊r1 * 100⌋ ++ "AB" ++ toString ⌊r2 * 10000⌋

/-- The four box reads of detection `i`: indices `baseIndex .. baseIndex+3`
with `baseIndex = 1 + i * 6`. -/
def bboxAt (output : List ℚ) (i : ℕ) : BBox where
  x1 := output[1 + i * 6]?
  y1 := output[1 + i * 6 + 1]?
  x2 := output[1 + i * 6 + 2]?
  y2 := output[1 + i * 6 + 3]?

/-- Record pushed for detection `i` with confidence `c`, consuming the
random draws `r1`, `r2`. -/
def mkPlate (output : List ℚ) (i : ℕ) (c r1 r2 : ℚ) : Plate where
  confidence := c
  bbox := bboxAt output i
  text := plateText r1 r2

/-- One iteration of the `processOutput` loop (lines 153-169).  The state
is the accumulated record list plus the index of the next unconsumed
random draw; a record is pushed only when the confidence read succeeds
and exceeds the threshold 0.5, consuming two random draws. -/
def detectStep (rng : ℕ → ℚ) (output : List ℚ) (acc : List Plate × ℕ) (i : ℕ) :
    List Plate × ℕ :=
  match output[1 + i * 6 + 4]? with
  | some c =>
      if 1 / 2 < c then
        (acc.1 ++ [mkPlate output i c (rng acc.2) (rng (acc.2 + 1))], acc.2 + 2)
      else acc
  | none => acc

/-- Number of loop iterations of `processOutput`:
`numDetections = Math.min(output[0], 10)` and the loop runs for integer
`i` with `i < numDetections`.  An empty array gives `undefined`, hence
`NaN` and zero iterations; a fractional or negative bound gives
`max 0 (ceil (min q 10))` iterations. -/
def numIterations (output : List ℚ) : ℕ :=
  match output[0]? with
  | none => 0
  | some q => (⌈min q 10⌉).toNat

/-- The decoder `processOutput` (`ScanLicensePlateScreen.js` lines
149-172), with the `Math.random()` stream abstracted as `rng`. -/
def processOutput (rng : ℕ → ℚ) (output : List ℚ) : List Plate :=
  ((List.range (numIterations output)).foldl (detectStep rng output) ([], 0)).1

/-- Recursion-form of the decoder loop over an explicit index list,
tracking the next random-draw index `k`; used to reason about
`processOutput` by induction. -/
def detections (rng : ℕ → ℚ) (output : List ℚ) : ℕ → List ℕ → List Plate
  | _, [] => []
  | k, i :: is =>
      match output[1 + i * 6 + 4]? with
      | some c =>
          if 1 / 2 < c then
            mkPlate output i c (rng k) (rng (k + 1)) :: detections rng output (k + 2) is
          else detections rng output k is
      | none => detections rng output k is

/-- Texts produced by `n` consecutive record pushes starting at random
draw `k`: each push consumes two draws. -/
def textStream (rng : ℕ → ℚ) : ℕ → ℕ → List String
  | _, 0 => []
  | k, n + 1 => plateText (rng k) (rng (k + 1)) :: textStream rng (k + 2) n

/-- Best-plate selection from `processImage` lines 118-120:
`plates.reduce((prev, current) => (prev.confidence > current.confidence) ? prev : current)`.
JS `reduce` without an initial value starts from the first element, so the
embedding takes the head and folds over the tail. -/
def selectBest (p : Plate) (l : List Plate) : Plate :=
  l.foldl (fun prev current => if prev.confidence > current.confidence then prev else current) p

/-- Removal of whitespace from the plate text (`processImage` line 125:
`bestPlate.text.replace(/\s/g, '')`). -/
def stripSpaces (s : String) : String :=
  String.mk (s.data.filter (fun c => !c.isWhitespace))

/-- Outcome of one `processImage` run on a decoded output array: either
navigation onward with the plate text and state code, or a user-facing
alert carrying the error message. -/
inductive ProcessResult where
  | navigate (licensePlate stateCode : String)
  | alertError (message : String)
deriving DecidableEq

/-- Decision logic of `processImage` (lines 104-146) after inference has
produced the raw output array: an empty decode throws
`No license plates detected`, which the catch block surfaces as an alert;
otherwise the best plate is selected, whitespace stripped, the state code
taken as the first two characters, and navigation proceeds. -/
def processImage (rng : ℕ → ℚ) (output : List ℚ) : ProcessResult :=
  match processOutput rng output with
  | [] => ProcessResult.alertError "No license plates detected"
  | p :: rest =>
      let plate := stripSpaces (selectBest p rest).text
      ProcessResult.navigate plate (plate.take 2)

/-- Concrete plate used to exhibit the tie-breaking behaviour of
`selectBest`. -/
def cPlateA : Plate where
  confidence := 1
  bbox := ⟨some 0, some 0, some 1, some 1⟩
  text := "A"

/-- Second concrete plate with the same confidence as `cPlateA` but
different content. -/
def cPlateB : Plate where
  confidence := 1
  bbox := ⟨some 2, some 2, some 3, some 3⟩
  text := "B"

section ProcessOutputLemmas

variable (rng : ℕ → ℚ) (output : List ℚ)

lemma foldl_detectStep :
    ∀ (l : List ℕ) (ps : List Plate) (k : ℕ),
      l.foldl (detectStep rng output) (ps, k) =
        (ps ++ detections rng output k l,
         k + 2 * (detections rng output k l).length) := by
  intro l
  induction l with
  | nil => intro ps k; simp [detections]
  | cons i is ih =>
      intro ps k
      rw [List.foldl_cons]
      cases h : output[1 + i * 6 + 4]? with
      | none =>
          simp only [detections, detectStep, h]
          exact ih ps k
      | some c =>
          by_cases hc : 1 / 2 < c
          · simp only [detections, detectStep, h, if_pos hc]
            rw [ih]
            simp only [Prod.mk.injEq, List.length_cons]
            exact ⟨by simp, by omega⟩
          · simp only [detections, detectStep, h, if_neg hc]
            exact ih ps k

lemma processOutput_eq_detections :
    processOutput rng output =
      detections rng output 0 (List.range (numIterations output)) := by
  simp [processOutput, foldl_detectStep]

lemma detections_length_le :
    ∀ (l : List ℕ) (k : ℕ), (detections rng output k l).length ≤ l.length := by
  intro l
  induction l with
  | nil => intro k; simp [detections]
  | cons i is ih =>
      intro k
      cases h : output[1 + i * 6 + 4]? with
      | none =>
          simp only [detections, h, List.length_cons]
          exact (ih k).trans (Nat.le_succ _)
      | some c =>
          by_cases hc : 1 / 2 < c
          · simp only [detections, h, if_pos hc, List.length_cons]
            exact Nat.succ_le_succ (ih (k + 2))
          · simp only [detections, h, if_neg hc, List.length_cons]
            exact (ih k).trans (Nat.le_succ _)

lemma detections_mem :
    ∀ (l : List ℕ) (k : ℕ) (p : Plate), p ∈ detections rng output k l →
      ∃ i ∈ l, output[1 + i * 6 + 4]? = some p.confidence ∧
        1 / 2 < p.confidence ∧ p.bbox = bboxAt output i ∧
        ∃ j, p.text = plateText (rng j) (rng (j + 1)) := by
  intro l
  induction l with
  | nil => intro k p hp; simp [detections] at hp
  | cons i is ih =>
      intro k p hp
      cases h : output[1 + i * 6 + 4]? with
      | none =>
          simp only [detections, h] at hp
          obtain ⟨i0, hi0, rest⟩ := ih k p hp
          exact ⟨i0, List.mem_cons_of_mem _ hi0, rest⟩
      | some c =>
          by_cases hc : 1 / 2 < c
          · simp only [detections, h, if_pos hc, List.mem_cons] at hp
            rcases hp with hp | hp
            · refine ⟨i, List.mem_cons_self _ _, ?_⟩
              subst hp
              exact ⟨h, hc, rfl, k, rfl⟩
            · obtain ⟨i0, hi0, rest⟩ := ih (k + 2) p hp
              exact ⟨i0, List.mem_cons_of_mem _ hi0, rest⟩
          · simp only [detections, h, if_neg hc] at hp
            obtain ⟨i0, hi0, rest⟩ := ih k p hp
            exact ⟨i0, List.mem_cons_of_mem _ hi0, rest⟩

lemma detections_incl :
    ∀ (l : List ℕ) (k : ℕ) (i : ℕ) (c : ℚ), i ∈ l →
      output[1 + i * 6 + 4]? = some c → 1 / 2 < c →
      ∃ p ∈ detections rng output k l,
        p.confidence = c ∧ p.bbox = bboxAt output i := by
  intro l
  induction l with
  | nil => intro k i c hi; simp at hi
  | cons j js ih =>
      intro k i c hi hread hc
      rcases List.mem_cons.mp hi with hi | hi
      · subst hi
        simp only [detections, hread, if_pos hc]
        exact ⟨mkPlate output i c (rng k) (rng (k + 1)),
          List.mem_cons_self _ _, rfl, rfl⟩
      · cases h : output[1 + j * 6 + 4]? with
        | none =>
            simp only [detections, h]
            exact ih k i c hi hread hc
        | some c0 =>
            by_cases hc0 : 1 / 2 < c0
            · simp only [detections, h, if_pos hc0]
              obtain ⟨p, hp, hrest⟩ := ih (k + 2) i c hi hread hc
              exact ⟨p, List.mem_cons_of_mem _ hp, hrest⟩
            · simp only [detections, h, if_neg hc0]
              exact ih k i c hi hread hc

lemma detections_map_text :
    ∀ (l : List ℕ) (k : ℕ),
      (detections rng output k l).map Plate.text =
        textStream rng k (detections rng output k l).length := by
  intro l
  induction l with
  | nil => intro k; simp [detections, textStream]
  | cons i is ih =>
      intro k
      cases h : output[1 + i * 6 + 4]? with
      | none => simp only [detections, h]; exact ih k
      | some c =>
          by_cases hc : 1 / 2 < c
          · simp only [detections, h, if_pos hc, List.map_cons, List.length_cons,
              textStream, mkPlate]
            exact congrArg (List.cons _) (ih (k + 2))
          · simp only [detections, h, if_neg hc]
            exact ih k

lemma numIterations_le_ten : numIterations output ≤ 10 := by
  unfold numIterations
  cases h : output[0]? with
  | none => exact Nat.zero_le _
  | some q =>
      have h1 : ⌈min q 10⌉ ≤ 10 := by
        refine (Int.ceil_le).mpr ?_
        calc min q 10 ≤ 10 := min_le_right _ _
          _ = ((10 : ℤ) : ℚ) := by norm_num
      exact Int.toNat_le.mpr (by exact_mod_cast h1)

lemma numIterations_natCast (n : ℕ) (h : output[0]? = some (n : ℚ)) :
    numIterations output = min n 10 := by
  unfold numIterations
  rw [h]
  show (⌈min (n : ℚ) 10⌉).toNat = min n 10
  have hmin : min (n : ℚ) 10 = ((min n 10 : ℕ) : ℚ) := by
    push_cast
    rfl
  rw [hmin, Int.ceil_natCast, Int.toNat_natCast]

lemma numIterations_nonpos (q : ℚ) (h : output[0]? = some q) (hq : q ≤ 0) :
    numIterations output = 0 := by
  unfold numIterations
  rw [h]
  show (⌈min q 10⌉).toNat = 0
  have h1 : ⌈min q 10⌉ ≤ 0 := by
    refine (Int.ceil_le).mpr ?_
    calc min q 10 ≤ q := min_le_left _ _
      _ ≤ 0 := hq
      _ = ((0 : ℤ) : ℚ) := by norm_num
  omega

end ProcessOutputLemmas

/-- C1: for a raw output array whose element 0 is a non-negative integer
`n` and whose length covers `n` six-number records starting at index 1,
`processOutput` returns at most `min n 10` records, and (within the
clamped range) a record for detection `i` is present exactly when its
confidence at index `1 + i * 6 + 4` is strictly greater than 0.5. -/
theorem processOutput_filters_by_confidence (rng : ℕ → ℚ) (output : List ℚ) (n : ℕ)
    (h0 : output[0]? = some (n : ℚ)) (hlen : 1 + 6 * n ≤ output.length) :
    (processOutput rng output).length ≤ min n 10 ∧
    ∀ i < min n 10,
      ((∃ p ∈ processOutput rng output,
          p.confidence = output.getD (1 + i * 6 + 4) 0 ∧ p.bbox = bboxAt output i) ↔
        1 / 2 < output.getD (1 + i * 6 + 4) 0) := by
  have hiter := numIterations_natCast output n h0
  rw [processOutput_eq_detections, hiter]
  constructor
  · exact (detections_length_le rng output _ 0).trans (by simp)
  · intro i hi
    have hidx : 1 + i * 6 + 4 < output.length := by omega
    have hread : output[1 + i * 6 + 4]? = some (output.getD (1 + i * 6 + 4) 0) := by
      rw [List.getD_eq_getElem?_getD, List.getElem?_eq_getElem hidx]
      rfl
    constructor
    · rintro ⟨p, hp, hconf, _⟩
      obtain ⟨i0, _, _, hc, _⟩ := detections_mem rng output _ 0 p hp
      exact hconf ▸ hc
    · intro hc
      obtain ⟨p, hp, h1, h2⟩ :=
        detections_incl rng output (List.range (min n 10)) 0 i _
          (List.mem_range.mpr hi) hread hc
      exact ⟨p, hp, h1, h2⟩

/-- C1 witness: a concrete array with count 2 whose first record passes
the threshold and whose second does not. -/
theorem processOutput_filters_by_confidence_witness :
    (processOutput (fun _ => 1 / 2)
        ([2, 1, 2, 3, 4, 3 / 4, 0, 5, 6, 7, 8, 1 / 4, 0] : List ℚ)).length ≤
      min 2 10 ∧
    ∀ i < min 2 10,
      ((∃ p ∈ processOutput (fun _ => 1 / 2)
            ([2, 1, 2, 3, 4, 3 / 4, 0, 5, 6, 7, 8, 1 / 4, 0] : List ℚ),
          p.confidence =
            List.getD ([2, 1, 2, 3, 4, 3 / 4, 0, 5, 6, 7, 8, 1 / 4, 0] : List ℚ)
              (1 + i * 6 + 4) 0 ∧
          p.bbox = bboxAt ([2, 1, 2, 3, 4, 3 / 4, 0, 5, 6, 7, 8, 1 / 4, 0] : List ℚ) i) ↔
        1 / 2 <
          List.getD ([2, 1, 2, 3, 4, 3 / 4, 0, 5, 6, 7, 8, 1 / 4, 0] : List ℚ)
            (1 + i * 6 + 4) 0) :=
  processOutput_filters_by_confidence (fun _ => 1 / 2) _ 2 (by norm_num) (by norm_num)

/-- C6: an output array whose element 0 equals 0 decodes to the empty
record list, and `processImage` surfaces this as the explicit alert
`No license plates detected` rather than navigating onward. -/
theorem processOutput_zero_detections (rng : ℕ → ℚ) (output : List ℚ)
    (h : output[0]? = some 0) :
    processOutput rng output = [] ∧
    processImage rng output = ProcessResult.alertError "No license plates detected" := by
  have h0 : processOutput rng output = [] := by
    rw [processOutput_eq_detections, numIterations_nonpos output 0 h le_rfl]
    simp [detections]
  exact ⟨h0, by simp [processImage, h0]⟩

/-- C6 witness: the one-element array `[0]`. -/
theorem processOutput_zero_detections_witness :
    processOutput (fun _ => 1 / 2) [0] = [] ∧
    processImage (fun _ => 1 / 2) [0] =
      ProcessResult.alertError "No license plates detected" :=
  processOutput_zero_detections (fun _ => 1 / 2) [0] (by simp)

/-- C8: on every raw output array, also one shorter than its claimed
detection count implies, the decoder returns (it is a total function in
the embedding): at most 10 records are ever produced, and every produced
record stems from an in-bounds confidence read that passed the
threshold, so reads past the end never yield a record. -/
theorem processOutput_safe (rng : ℕ → ℚ) (output : List ℚ) :
    (processOutput rng output).length ≤ 10 ∧
    ∀ p ∈ processOutput rng output,
      ∃ i < 10, output[1 + i * 6 + 4]? = some p.confidence ∧ 1 / 2 < p.confidence := by
  rw [processOutput_eq_detections]
  constructor
  · exact (detections_length_le rng output _ 0).trans
      (by simpa using numIterations_le_ten output)
  · intro p hp
    obtain ⟨i, hi, hr, hc, _⟩ := detections_mem rng output _ 0 p hp
    exact ⟨i, lt_of_lt_of_le (List.mem_range.mp hi) (numIterations_le_ten output), hr, hc⟩

/-- C9: the text field of every emitted record is determined solely by
the random stream: two arrays producing the same number of
above-threshold detections yield identical text lists, and with draws in
`[0,1)` every text has the shape `KA(n)AB(m)` with `0 ≤ n ≤ 99` and
`0 ≤ m ≤ 9999`. -/
theorem processOutput_text_random_only (rng : ℕ → ℚ)
    (hr : ∀ k, 0 ≤ rng k ∧ rng k < 1) (o1 o2 : List ℚ)
    (hlen : (processOutput rng o1).length = (processOutput rng o2).length) :
    (processOutput rng o1).map Plate.text = (processOutput rng o2).map Plate.text ∧
    ∀ p ∈ processOutput rng o1, ∃ n m : ℤ,
      0 ≤ n ∧ n ≤ 99 ∧ 0 ≤ m ∧ m ≤ 9999 ∧
      p.text = "KA" ++ toString n ++ "AB" ++ toString m := by
  constructor
  · rw [processOutput_eq_detections, detections_map_text,
      processOutput_eq_detections rng o2, detections_map_text]
    rw [processOutput_eq_detections, processOutput_eq_detections rng o2] at hlen
    rw [hlen]
  · intro p hp
    rw [processOutput_eq_detections] at hp
    obtain ⟨i, _, _, _, _, j, htext⟩ := detections_mem rng o1 _ 0 p hp
    refine ⟨⌊rng j * 100⌋, ⌊rng (j + 1) * 10000⌋, ?_, ?_, ?_, ?_, ?_⟩
    · exact Int.floor_nonneg.mpr (by nlinarith [(hr j).1])
    · have hlt : ⌊rng j * 100⌋ < 100 := Int.floor_lt.mpr (by push_cast; nlinarith [(hr j).2])
      omega
    · exact Int.floor_nonneg.mpr (by nlinarith [(hr (j + 1)).1])
    · have hlt : ⌊rng (j + 1) * 10000⌋ < 10000 :=
        Int.floor_lt.mpr (by push_cast; nlinarith [(hr (j + 1)).2])
      omega
    · rw [htext]
      rfl

/-- C9 witness: two different arrays, each with exactly one
above-threshold detection, under the constant stream `1/2`. -/
theorem processOutput_text_random_only_witness :
    (processOutput (fun _ => 1 / 2) [1, 1, 2, 3, 4, 3 / 4, 0]).map Plate.text =
      (processOutput (fun _ => 1 / 2) [1, 9, 9, 9, 9, 7 / 8, 5]).map Plate.text ∧
    ∀ p ∈ processOutput (fun _ => 1 / 2) [1, 1, 2, 3, 4, 3 / 4, 0], ∃ n m : ℤ,
      0 ≤ n ∧ n ≤ 99 ∧ 0 ≤ m ∧ m ≤ 9999 ∧
      p.text = "KA" ++ toString n ++ "AB" ++ toString m :=
  processOutput_text_random_only (fun _ => 1 / 2)
    (fun _ => by norm_num) [1, 1, 2, 3, 4, 3 / 4, 0] [1, 9, 9, 9, 9, 7 / 8, 5]
    (by norm_num [processOutput, numIterations, detectStep, List.range_succ])

/-- C10: an output array whose element 0 is any non-positive rational
gives a non-positive loop bound, so the loop body never runs and the
decoder returns the empty list. -/
theorem processOutput_nonpos_count (rng : ℕ → ℚ) (output : List ℚ) (q : ℚ)
    (h : output[0]? = some q) (hq : q ≤ 0) :
    numIterations output = 0 ∧ processOutput rng output = [] := by
  have h0 := numIterations_nonpos output q h hq
  refine ⟨h0, ?_⟩
  rw [processOutput_eq_detections, h0]
  simp [detections]

/-- C10 witness: a negative detection count with records present. -/
theorem processOutput_nonpos_count_witness :
    numIterations [-3, 1, 1, 1, 1, 1, 1] = 0 ∧
    processOutput (fun _ => 1 / 2) [-3, 1, 1, 1, 1, 1, 1] = [] :=
  processOutput_nonpos_count (fun _ => 1 / 2) [-3, 1, 1, 1, 1, 1, 1] (-3)
    (by norm_num) (by norm_num)

lemma selectBest_mem_le :
    ∀ (l : List Plate) (p : Plate),
      selectBest p l ∈ p :: l ∧
      ∀ q ∈ p :: l, q.confidence ≤ (selectBest p l).confidence := by
  intro l
  induction l with
  | nil =>
      intro p
      refine ⟨by simp [selectBest], ?_⟩
      intro q hq
      rw [List.mem_singleton] at hq
      simp [selectBest, hq]
  | cons c t ih =>
      intro p
      have hstep : selectBest p (c :: t) =
          selectBest (if p.confidence > c.confidence then p else c) t := rfl
      obtain ⟨hmem, hle⟩ := ih (if p.confidence > c.confidence then p else c)
      constructor
      · rw [hstep]
        rcases List.mem_cons.mp hmem with h | h
        · rw [h]
          by_cases hpc : p.confidence > c.confidence
          · simp [hpc]
          · simp [hpc]
        · exact List.mem_cons_of_mem _ (List.mem_cons_of_mem _ h)
      · intro q hq
        rw [hstep]
        rcases List.mem_cons.mp hq with h | h
        · subst h
          by_cases hpc : q.confidence > c.confidence
          · simpa [hpc] using hle _ (List.mem_cons_self _ _)
          · calc q.confidence ≤ c.confidence := le_of_not_lt hpc
              _ ≤ _ := by simpa [hpc] using hle _ (List.mem_cons_self _ _)
        · rcases List.mem_cons.mp h with h | h
          · subst h
            by_cases hpc : p.confidence > q.confidence
            · calc q.confidence ≤ p.confidence := le_of_lt hpc
                _ ≤ _ := by simpa [hpc] using hle _ (List.mem_cons_self _ _)
            · simpa [hpc] using hle _ (List.mem_cons_self _ _)
          · exact hle _ (List.mem_cons_of_mem _ h)

/-- C2 counterexample: two candidates with equal confidence; the
selection returns the second (later) one, not the first, refuting the
claimed first-wins tie-breaking. -/
theorem selectBest_tie_goes_last_counterexample :
    cPlateA.confidence = cPlateB.confidence ∧
    selectBest cPlateA [cPlateB] = cPlateB ∧ cPlateB ≠ cPlateA := by
  refine ⟨rfl, ?_, ?_⟩
  · simp [selectBest, cPlateA, cPlateB]
  · simp [cPlateA, cPlateB]

/-- C2 amended: the selection returns a candidate of maximal confidence,
and when a later candidate ties the running best, the later one is
selected (JS `reduce` keeps `prev` only on strict `prev > current`). -/
theorem selectBest_max_confidence (p : Plate) (l : List Plate) :
    selectBest p l ∈ p :: l ∧
    (∀ q ∈ p :: l, q.confidence ≤ (selectBest p l).confidence) ∧
    ∀ a : Plate, selectBest p (l ++ [a]) =
      if (selectBest p l).confidence > a.confidence then selectBest p l else a := by
  obtain ⟨hmem, hle⟩ := selectBest_mem_le l p
  refine ⟨hmem, hle, ?_⟩
  intro a
  simp [selectBest, List.foldl_append]

/-- C2 amended, instantiated at the concrete tie from the
counterexample. -/
theorem selectBest_max_confidence_witness :
    selectBest cPlateA [cPlateB] ∈ cPlateA :: [cPlateB] ∧
    (∀ q ∈ cPlateA :: [cPlateB],
      q.confidence ≤ (selectBest cPlateA [cPlateB]).confidence) ∧
    ∀ a : Plate, selectBest cPlateA ([cPlateB] ++ [a]) =
      if (selectBest cPlateA [cPlateB]).confidence > a.confidence
      then selectBest cPlateA [cPlateB] else a :=
  selectBest_max_confidence cPlateA [cPlateB]

section ResizeLemmas

variable {α : Type}

lemma flatMap_quad (f : ℕ → α) (k : ℕ) :
    ∀ n, (List.range n).flatMap
        (fun x => [f ((k + x) * 4), f ((k + x) * 4 + 1),
                   f ((k + x) * 4 + 2), f ((k + x) * 4 + 3)]) =
      (List.range (n * 4)).map (fun j => f (k * 4 + j)) := by
  intro n
  induction n with
  | zero => simp
  | succ n ih =>
      rw [List.range_succ, List.flatMap_append, ih,
        show (n + 1) * 4 = n * 4 + 4 from by ring, List.range_add, List.map_append,
        List.map_map, show List.range 4 = [0, 1, 2, 3] from by decide]
      simp only [List.flatMap_cons, List.flatMap_nil, List.append_nil, List.map_cons,
        List.map_nil, Function.comp]
      congr 2 <;> ring_nf

lemma flatMap_rows (g : ℕ → α) (m : ℕ) :
    ∀ H, (List.range H).flatMap (fun y => (List.range m).map (fun j => g (y * m + j))) =
      (List.range (H * m)).map g := by
  intro H
  induction H with
  | zero => simp
  | succ H ih =>
      rw [List.range_succ, List.flatMap_append, ih,
        show (H + 1) * m = H * m + m from by ring, List.range_add, List.map_append,
        List.map_map]
      simp only [List.flatMap_cons, List.flatMap_nil, List.append_nil]
      rfl

lemma map_getD_range (l : List α) (d : α) :
    (List.range l.length).map (fun j => (l[j]?).getD d) = l := by
  induction l with
  | nil => simp
  | cons a t ih =>
      rw [List.length_cons, List.range_succ_eq_map, List.map_cons, List.map_map]
      congr 1
      · simp
      · calc List.map ((fun j => ((a :: t)[j]?).getD d) ∘ Nat.succ) (List.range t.length)
            = List.map (fun j => (t[j]?).getD d) (List.range t.length) := by
              refine List.map_congr_left ?_
              intro j _
              simp [Function.comp, List.getElem?_cons_succ]
          _ = t := ih

end ResizeLemmas

/-- C4: resizing a buffer to its own dimensions is the identity on
well-formed buffers (data length `width * height * 4`): every source
coordinate computed by the floor division is the destination coordinate
itself, so each pixel is copied unchanged. -/
theorem resizeNearestNeighbor_identity (img : RawImage)
    (hlen : img.data.length = img.width * img.height * 4) :
    resizeNearestNeighbor img img.width img.height = img := by
  obtain ⟨W, H, d⟩ := img
  simp only at hlen
  simp only [resizeNearestNeighbor, RawImage.mk.injEq]
  refine ⟨trivial, trivial, ?_⟩
  rcases Nat.eq_zero_or_pos W with hW | hW
  · subst hW
    simp only [Nat.zero_mul, Nat.mul_zero] at hlen
    rw [List.eq_nil_of_length_eq_zero hlen]
    simp
  rcases Nat.eq_zero_or_pos H with hH | hH
  · subst hH
    simp only [Nat.mul_zero, Nat.zero_mul] at hlen
    rw [List.eq_nil_of_length_eq_zero hlen]
    simp
  have hsY : ∀ y : ℕ, srcCoord H H y = y := fun y => Nat.mul_div_cancel y hH
  have hsX : ∀ x : ℕ, srcCoord W W x = x := fun x => Nat.mul_div_cancel x hW
  simp only [hsY, hsX]
  have hrow : ∀ y : ℕ,
      (List.range W).flatMap
          (fun x => [(d[(y * W + x) * 4]?).getD 0, (d[(y * W + x) * 4 + 1]?).getD 0,
                     (d[(y * W + x) * 4 + 2]?).getD 0, (d[(y * W + x) * 4 + 3]?).getD 0]) =
        (List.range (W * 4)).map (fun j => (d[y * W * 4 + j]?).getD 0) :=
    fun y => flatMap_quad (fun idx => (d[idx]?).getD 0) (y * W) W
  simp only [hrow, Nat.mul_assoc]
  rw [flatMap_rows (fun idx => (d[idx]?).getD 0) (W * 4) H,
    show H * (W * 4) = d.length from by rw [hlen]; ring,
    map_getD_range]

/-- C4 witness: a concrete 2 by 1 buffer resized to its own size. -/
theorem resizeNearestNeighbor_identity_witness :
    resizeNearestNeighbor ⟨2, 1, [1, 2, 3, 4, 5, 6, 7, 8]⟩ 2 1 =
      ⟨2, 1, [1, 2, 3, 4, 5, 6, 7, 8]⟩ :=
  resizeNearestNeighbor_identity ⟨2, 1, [1, 2, 3, 4, 5, 6, 7, 8]⟩ (by decide)

/-- C7: for positive source dimensions and any valid destination
coordinate, the floor-divided source coordinates are strictly below the
source dimensions, and on a well-formed buffer every one of the four
channel reads performed by `resizeNearestNeighbor` is in bounds, so the
`none` branch of the `Option` lookup is unreachable. -/
theorem srcCoord_reads_in_bounds (img : RawImage) (newW newH x y : ℕ)
    (hW : 0 < img.width) (hH : 0 < img.height)
    (hlen : img.data.length = img.width * img.height * 4)
    (hx : x < newW) (hy : y < newH) :
    srcCoord img.width newW x < img.width ∧
    srcCoord img.height newH y < img.height ∧
    ∀ c < 4,
      (srcCoord img.height newH y * img.width + srcCoord img.width newW x) * 4 + c <
          img.data.length ∧
      (img.data[(srcCoord img.height newH y * img.width + srcCoord img.width newW x) * 4 + c]?).isSome := by
  obtain ⟨W, H, d⟩ := img
  simp only at hW hH hlen ⊢
  have hnW : 0 < newW := lt_of_le_of_lt (Nat.zero_le x) hx
  have hnH : 0 < newH := lt_of_le_of_lt (Nat.zero_le y) hy
  have hsx : srcCoord W newW x < W := by
    unfold srcCoord
    rw [Nat.div_lt_iff_lt_mul hnW]
    calc x * W < newW * W := (Nat.mul_lt_mul_right hW).mpr hx
      _ = W * newW := Nat.mul_comm _ _
  have hsy : srcCoord H newH y < H := by
    unfold srcCoord
    rw [Nat.div_lt_iff_lt_mul hnH]
    calc y * H < newH * H := (Nat.mul_lt_mul_right hH).mpr hy
      _ = H * newH := Nat.mul_comm _ _
  refine ⟨hsx, hsy, ?_⟩
  intro c hc
  have hK : srcCoord H newH y * W + srcCoord W newW x < H * W := by
    calc srcCoord H newH y * W + srcCoord W newW x
        < srcCoord H newH y * W + W := Nat.add_lt_add_left hsx _
      _ = (srcCoord H newH y + 1) * W := by ring
      _ ≤ H * W := Nat.mul_le_mul_right _ (Nat.succ_le_of_lt hsy)
  have hidx : (srcCoord H newH y * W + srcCoord W newW x) * 4 + c < d.length := by
    have h1 : (srcCoord H newH y * W + srcCoord W newW x + 1) * 4 ≤ H * W * 4 :=
      Nat.mul_le_mul_right _ (Nat.succ_le_of_lt hK)
    have h2 : H * W * 4 = W * H * 4 := by ring
    omega
  refine ⟨hidx, ?_⟩
  rw [List.getElem?_eq_getElem hidx]
  rfl

/-- C7 witness: a 3 by 2 source buffer sampled for the target size
4 by 4 at destination coordinate (3, 2). -/
theorem srcCoord_reads_in_bounds_witness :
    srcCoord (RawImage.mk 3 2 (List.replicate 24 7)).width 4 3 <
        (RawImage.mk 3 2 (List.replicate 24 7)).width ∧
    srcCoord (RawImage.mk 3 2 (List.replicate 24 7)).height 4 2 <
        (RawImage.mk 3 2 (List.replicate 24 7)).height ∧
    ∀ c < 4,
      (srcCoord (RawImage.mk 3 2 (List.replicate 24 7)).height 4 2 *
            (RawImage.mk 3 2 (List.replicate 24 7)).width +
          srcCoord (RawImage.mk 3 2 (List.replicate 24 7)).width 4 3) * 4 + c <
          (RawImage.mk 3 2 (List.replicate 24 7)).data.length ∧
      ((RawImage.mk 3 2 (List.replicate 24 7)).data[
          (srcCoord (RawImage.mk 3 2 (List.replicate 24 7)).height 4 2 *
              (RawImage.mk 3 2 (List.replicate 24 7)).width +
            srcCoord (RawImage.mk 3 2 (List.replicate 24 7)).width 4 3) * 4 + c]?).isSome :=
  srcCoord_reads_in_bounds (RawImage.mk 3 2 (List.replicate 24 7)) 4 4 3 2
    (by decide) (by decide) (by decide) (by decide) (by decide)

lemma length_flatMap_triple {β : Type} (f g h : ℕ → β) :
    ∀ n, ((List.range n).flatMap (fun i => [f i, g i, h i])).length = n * 3 := by
  intro n
  induction n with
  | zero => simp
  | succ n ih =>
      rw [List.range_succ, List.flatMap_append, List.length_append, ih]
      simp
      ring

lemma getD_zero_mem (l : List ℕ) (i : ℕ) :
    (l[i]?).getD 0 = 0 ∨ (l[i]?).getD 0 ∈ l := by
  cases h : l[i]? with
  | none => exact Or.inl rfl
  | some a => exact Or.inr (by simpa using List.getElem?_mem h)

lemma resize_data_mem (img : RawImage) (newW newH : ℕ) (v : ℕ)
    (hv : v ∈ (resizeNearestNeighbor img newW newH).data) :
    v = 0 ∨ v ∈ img.data := by
  simp only [resizeNearestNeighbor, List.mem_flatMap, List.mem_range,
    List.mem_cons, List.not_mem_nil, or_false] at hv
  obtain ⟨y, _, x, _, hcase⟩ := hv
  rcases hcase with h | h | h | h <;> { rw [h]; exact getD_zero_mem _ _ }

/-- C3: on any decoded image whose bytes are at most 255 (as a
`Uint8Array` guarantees) and positive target dimensions, the converter
output has length exactly `targetW * targetH * 3` and every entry is a
byte divided by 255, hence lies in the closed interval from 0 to 1. -/
theorem base64ToTensor_length_range (decodeJpeg : List Char → RawImage) (s : String)
    (targetW targetH : ℕ) (_hW : 0 < targetW) (_hH : 0 < targetH)
    (hbytes : ∀ b ∈ (decodeJpeg (stripDataUri s.data)).data, b ≤ 255) :
    (base64ToTensor decodeJpeg s targetW targetH).length = targetW * targetH * 3 ∧
    ∀ v ∈ base64ToTensor decodeJpeg s targetW targetH,
      0 ≤ v ∧ v ≤ 1 ∧ ∃ b : ℕ, b ≤ 255 ∧ v = (b : ℚ) / 255 := by
  constructor
  · simp only [base64ToTensor, tensorFromImage]
    rw [length_flatMap_triple]
  · intro v hv
    simp only [base64ToTensor, tensorFromImage, List.mem_flatMap, List.mem_range,
      List.mem_cons, List.not_mem_nil, or_false] at hv
    obtain ⟨i, _, hcase⟩ := hv
    have hbound : ∀ idx : ℕ,
        (((resizeNearestNeighbor (decodeJpeg (stripDataUri s.data)) targetW targetH).data[idx]?).getD 0) ≤ 255 := by
      intro idx
      rcases getD_zero_mem
          ((resizeNearestNeighbor (decodeJpeg (stripDataUri s.data)) targetW targetH).data) idx with
        h | h
      · omega
      · rcases resize_data_mem _ _ _ _ h with h0 | hmem
        · omega
        · exact hbytes _ hmem
    have hval : ∀ b : ℕ, b ≤ 255 →
        0 ≤ (b : ℚ) / 255 ∧ (b : ℚ) / 255 ≤ 1 ∧ ∃ b0 : ℕ, b0 ≤ 255 ∧ (b : ℚ) / 255 = (b0 : ℚ) / 255 := by
      intro b hb
      refine ⟨div_nonneg (by positivity) (by norm_num), ?_, b, hb, rfl⟩
      rw [div_le_one (by norm_num)]
      exact_mod_cast hb
    rcases hcase with h | h | h <;> { rw [h]; exact hval _ (hbound _) }

/-- C3 witness: a constant one-pixel decoder, target size 1 by 1. -/
theorem base64ToTensor_length_range_witness :
    (base64ToTensor (fun _ => ⟨1, 1, [10, 20, 30, 40]⟩) "QUJD" 1 1).length = 1 * 1 * 3 ∧
    ∀ v ∈ base64ToTensor (fun _ => ⟨1, 1, [10, 20, 30, 40]⟩) "QUJD" 1 1,
      0 ≤ v ∧ v ≤ 1 ∧ ∃ b : ℕ, b ≤ 255 ∧ v = (b : ℚ) / 255 :=
  base64ToTensor_length_range (fun _ => ⟨1, 1, [10, 20, 30, 40]⟩) "QUJD" 1 1
    (by decide) (by decide) (by decide)

lemma dropLiteral_append (lit : List Char) :
    ∀ s, dropLiteral lit (lit ++ s) = some s := by
  induction lit with
  | nil => intro s; rfl
  | cons c cs ih => intro s; simp [dropLiteral, ih]

lemma dropLiteral_eq_append (lit : List Char) :
    ∀ s r, dropLiteral lit s = some r → s = lit ++ r := by
  induction lit with
  | nil =>
      intro s r h
      simp only [dropLiteral, Option.some.injEq] at h
      simp [h]
  | cons c cs ih =>
      intro s r h
      cases s with
      | nil => simp [dropLiteral] at h
      | cons a as =>
          by_cases hac : a = c
          · subst hac
            simp only [dropLiteral, if_pos rfl] at h
            rw [List.cons_append]
            exact congrArg (List.cons a) (ih as r h)
          · simp [dropLiteral, hac] at h

lemma takeWhile_append_stop (p : Char → Bool) (a : Char) (t : List Char) (ha : p a = false) :
    ∀ w, (∀ c ∈ w, p c) →
      (w ++ a :: t).takeWhile p = w ∧ (w ++ a :: t).dropWhile p = a :: t := by
  intro w
  induction w with
  | nil => intro _; simp [List.takeWhile_cons, List.dropWhile_cons, ha]
  | cons c cs ih =>
      intro hw
      have hc : p c = true := hw c (List.mem_cons_self _ _)
      have hrest := ih (fun d hd => hw d (List.mem_cons_of_mem _ hd))
      simp only [List.cons_append, List.takeWhile_cons, List.dropWhile_cons, hc]
      simp only [if_true]
      exact ⟨congrArg (List.cons c) hrest.1, hrest.2⟩

lemma stripDataUri_strips (s rest tail : List Char)
    (h1 : dropLiteral ("data:image/".data) s = some rest)
    (h2 : rest.takeWhile isWordChar ≠ [])
    (h3 : dropLiteral (";base64,".data) (rest.dropWhile isWordChar) = some tail) :
    stripDataUri s = tail := by
  unfold stripDataUri
  rw [h1]
  show (if rest.takeWhile isWordChar = [] then s
      else
        match dropLiteral (";base64,".data) (rest.dropWhile isWordChar) with
        | none => s
        | some tail => tail) = tail
  rw [if_neg h2, h3]

/-- C5: attaching a data-URI header `data:image/(word);base64,` in front
of a base64 payload leaves the converter input after stripping identical
to the bare payload, and stripping never alters a bare base64 input
(which cannot start with the header, since `:` is not a base64
character); consequently `base64ToTensor` gives the same tensor on both
inputs for any decoder. -/
theorem base64ToTensor_strip_header (w s : List Char)
    (hw : w ≠ []) (hwc : ∀ c ∈ w, isWordChar c)
    (hs : ∀ c ∈ s, isBase64Char c)
    (decodeJpeg : List Char → RawImage) (targetW targetH : ℕ) :
    stripDataUri ("data:image/".data ++ w ++ ";base64,".data ++ s) = s ∧
    stripDataUri s = s ∧
    base64ToTensor decodeJpeg
        (String.mk ("data:image/".data ++ w ++ ";base64,".data ++ s)) targetW targetH =
      base64ToTensor decodeJpeg (String.mk s) targetW targetH := by
  have hpre : stripDataUri ("data:image/".data ++ w ++ ";base64,".data ++ s) = s := by
    have hassoc : "data:image/".data ++ w ++ ";base64,".data ++ s =
        "data:image/".data ++ (w ++ (';' :: ("base64,".data ++ s))) := by
      simp [List.append_assoc]
    have hsemi : isWordChar ';' = false := by decide
    have hsplit := takeWhile_append_stop isWordChar ';' ("base64,".data ++ s) hsemi w hwc
    refine stripDataUri_strips _ (w ++ (';' :: ("base64,".data ++ s))) s ?_ ?_ ?_
    · rw [hassoc, dropLiteral_append]
    · rw [hsplit.1]
      exact hw
    · rw [hsplit.2]
      have hsemiLit : (';' : Char) :: ("base64,".data ++ s) = ";base64,".data ++ s := rfl
      rw [hsemiLit, dropLiteral_append]
  have hbare : stripDataUri s = s := by
    cases hmatch : dropLiteral ("data:image/".data) s with
    | none => unfold stripDataUri; rw [hmatch]
    | some r =>
        exfalso
        have hsplit := dropLiteral_eq_append _ s r hmatch
        have hcolon : (':' : Char) ∈ s := by
          rw [hsplit]
          exact List.mem_append_left _ (by decide)
        have := hs ':' hcolon
        simp [isBase64Char] at this
  refine ⟨hpre, hbare, ?_⟩
  show tensorFromImage
      (decodeJpeg (stripDataUri ("data:image/".data ++ w ++ ";base64,".data ++ s))) _ _ =
    tensorFromImage (decodeJpeg (stripDataUri s)) _ _
  rw [hpre, hbare]

/-- C5 witness: header word `jpeg`, payload `QUJD`. -/
theorem base64ToTensor_strip_header_witness :
    stripDataUri ("data:image/".data ++ "jpeg".data ++ ";base64,".data ++ "QUJD".data) =
      "QUJD".data ∧
    stripDataUri "QUJD".data = "QUJD".data ∧
    base64ToTensor (fun _ => ⟨1, 1, [9, 9, 9, 9]⟩)
        (String.mk ("data:image/".data ++ "jpeg".data ++ ";base64,".data ++ "QUJD".data)) 1 1 =
      base64ToTensor (fun _ => ⟨1, 1, [9, 9, 9, 9]⟩) (String.mk "QUJD".data) 1 1 :=
  base64ToTensor_strip_header "jpeg".data "QUJD".data
    (by decide) (by decide) (by decide) (fun _ => ⟨1, 1, [9, 9, 9, 9]⟩) 1 1
